import Mathlib

/-!
Shallow embedding of src/falkordb_csv_loader.py (FalkorDB CSV loader).

Text is modelled as ASCII strings; the Python str methods the loader uses
(isdigit, replace, lstrip, strip, upper, split, startswith, endswith, `in`)
are embedded below on `List Char` / `String`.  Queries are modelled as
structured operations (`Op`) carrying the target graph, the write mode and
the bound record payloads, rather than as raw query text.
-/

namespace FalkorLoader

deriving instance DecidableEq for Except

/-- Python `str.isdigit` on ASCII text: nonempty and all decimal digits. -/
def pyIsDigit (l : List Char) : Bool := !l.isEmpty && l.all Char.isDigit

/-- Python `s.replace(c, '', 1)`: remove the first occurrence of the character `c`. -/
def replaceFirst (c : Char) : List Char → List Char
  | [] => []
  | x :: xs => if x = c then xs else x :: replaceFirst c xs

/-- Python `s.lstrip('-')`: drop every leading minus character. -/
def lstripMinus : List Char → List Char
  | [] => []
  | x :: xs => if x = '-' then lstripMinus xs else x :: xs

/-- Python `int` applied to a decimal digit string. -/
def digitsToNat (l : List Char) : Nat := l.foldl (fun n c => 10 * n + (c.toNat - 48)) 0

/-- Drop one leading sign character, as Python `float` parsing does. -/
def dropSign (l : List Char) : List Char :=
  match l with
  | [] => []
  | c :: r => if c = '+' ∨ c = '-' then r else c :: r

/-- Drop one leading minus character (used to state the spec's grammar). -/
def dropOneMinus (l : List Char) : List Char :=
  match l with
  | [] => []
  | c :: r => if c = '-' then r else c :: r

/-- Digit-or-dot character class. -/
def pDigitDot (c : Char) : Bool := c.isDigit || c = '.'

/-- Number of dot characters in a text. -/
def dotCount : List Char → Nat
  | [] => 0
  | c :: r => (if c = '.' then 1 else 0) + dotCount r

/-- Nonempty all-digit text. -/
def digits1 (l : List Char) : Bool := !l.isEmpty && l.all Char.isDigit

/-- Mantissa of a Python float literal: digits with at most one dot and at
least one digit, i.e. digit+ | digit+ . digit* | . digit+ . -/
def mantissaOk (l : List Char) : Bool :=
  match l.dropWhile (fun c => c ≠ '.') with
  | [] => digits1 l
  | _ :: b =>
    (l.takeWhile (fun c => c ≠ '.')).all Char.isDigit && b.all Char.isDigit &&
      !((l.takeWhile (fun c => c ≠ '.')) ++ b).isEmpty

/-- Optional sign followed by a nonempty digit string (a float exponent body). -/
def signedDigits : List Char → Bool
  | '+' :: r => digits1 r
  | '-' :: r => digits1 r
  | r => digits1 r

/-- Exponent part of a Python float literal (empty, or e/E then signed digits). -/
def expPart : List Char → Bool
  | [] => true
  | c :: rest => (c = 'e' || c = 'E') && signedDigits rest

/-- Whether Python `float(s)` succeeds on `s` (ASCII, no whitespace, no
underscores, no inf/nan — none of which occur in CSV numeric cells here):
optional sign, then a mantissa, then an optional exponent. -/
def pyFloatLit (l : List Char) : Bool :=
  mantissaOk ((dropSign l).takeWhile (fun c => !(c = 'e' || c = 'E'))) &&
    expPart ((dropSign l).dropWhile (fun c => !(c = 'e' || c = 'E')))

/-- Tagged scalar derived from a raw text cell.  Float values keep their
source text; IEEE semantics are never needed by the loader's control flow. -/
inductive TypedValue where
  | vnull : TypedValue
  | vint : Int → TypedValue
  | vfloat : String → TypedValue
  | vstr : String → TypedValue
deriving DecidableEq, Repr

/-- The node loader's float-branch test:
`value.replace('.', '', 1).lstrip('-').isdigit()`. -/
def nodeFloatTest (l : List Char) : Bool := pyIsDigit (lstripMinus (replaceFirst '.' l))

/-- The edge loader's float-branch test: `value.replace('.', '', 1).isdigit()`
(no lstrip of the minus). -/
def edgeFloatTest (l : List Char) : Bool := pyIsDigit (replaceFirst '.' l)

/-- Value typing as performed by the node loader (falkordb_csv_loader.py,
load_nodes_batch): empty → null (later omitted); all digits → int(value);
`value.replace('.','',1).lstrip('-').isdigit()` → float(value), which raises
ValueError (modelled as `Except.error`) when the text is not a valid float
literal; otherwise the text itself. -/
def nodeTypeValue (s : String) : Except Unit TypedValue :=
  let l := s.data
  if l.isEmpty then .ok .vnull
  else if pyIsDigit l then .ok (.vint (digitsToNat l))
  else if nodeFloatTest l then
    if pyFloatLit l then .ok (.vfloat s) else .error ()
  else .ok (.vstr s)

/-- Value typing as performed by the edge loader (load_edges_batch): identical
except that its float test does not strip a leading minus. -/
def edgeTypeValue (s : String) : Except Unit TypedValue :=
  let l := s.data
  if l.isEmpty then .ok .vnull
  else if pyIsDigit l then .ok (.vint (digitsToNat l))
  else if edgeFloatTest l then
    if pyFloatLit l then .ok (.vfloat s) else .error ()
  else .ok (.vstr s)

/-- The specification's decimal-number grammar for the Float case: an optional
single leading minus, then digit/dot characters with at most one dot and at
least one digit. -/
def specIsDecimal (s : String) : Bool :=
  (dropOneMinus s.data).all pDigitDot && decide (dotCount (dropOneMinus s.data) ≤ 1) &&
    (dropOneMinus s.data).any Char.isDigit

/-- Whether a pattern is a prefix of a text (Bool form). -/
def listStartsWith : List Char → List Char → Bool
  | [], _ => true
  | _ :: _, [] => false
  | p :: ps, c :: cs => p = c && listStartsWith ps cs

/-- Python `s.replace(pat, repl)` (all occurrences, left to right, pattern
nonempty for every use in the loader); fuel bounds the recursion by the
length of the text. -/
def replaceAllFuel (pat repl : List Char) : Nat → List Char → List Char
  | _, [] => []
  | 0, l => l
  | Nat.succ fuel, c :: rest =>
    if listStartsWith pat (c :: rest) then
      repl ++ replaceAllFuel pat repl fuel (rest.drop (pat.length - 1))
    else c :: replaceAllFuel pat repl fuel rest

/-- Python `s.replace(pat, repl)` on strings. -/
def pyReplace (s pat repl : String) : String :=
  String.mk (replaceAllFuel pat.data repl.data s.data.length s.data)

/-- Python `s.strip()` on ASCII text. -/
def pyStrip (s : String) : String :=
  String.mk (((s.data.dropWhile Char.isWhitespace).reverse.dropWhile Char.isWhitespace).reverse)

/-- Python `s.upper()` on ASCII text. -/
def pyUpper (s : String) : String := String.mk (s.data.map Char.toUpper)

/-- Whether `pat` occurs as a contiguous substring of the text. -/
def isSub (pat : List Char) : List Char → Bool
  | [] => listStartsWith pat []
  | c :: cs => listStartsWith pat (c :: cs) || isSub pat cs

/-- Python `sub in s` on strings. -/
def pyContains (s sub : String) : Bool := isSub sub.data s.data

/-- Python `s.split(sep)` for a single separator character, on char lists. -/
def splitOnCharList (sep : Char) : List Char → List (List Char)
  | [] => [[]]
  | c :: rest =>
    match splitOnCharList sep rest with
    | [] => [[c]]
    | h :: t => if c = sep then [] :: h :: t else (c :: h) :: t

/-- Python `s.split(sep)` for a single separator character, on strings. -/
def pySplitChar (s : String) (sep : Char) : List String :=
  (splitOnCharList sep s.data).map String.mk

/-- Python `s.startswith(pat)`. -/
def strStartsWith (s pat : String) : Bool := listStartsWith pat.data s.data

/-- Python `s.endswith(pat)`. -/
def strEndsWith (s pat : String) : Bool := listStartsWith pat.data.reverse s.data.reverse

/-- `[x.strip() for x in s.split(';') if x.strip()]`: the ;-delimited
multi-value columns of the descriptor files. -/
def semiSplit (s : String) : List String :=
  ((pySplitChar s ';').map pyStrip).filter (fun x => x ≠ "")

/-- Label sanitization: every colon replaced by an underscore. -/
def sanitizeLabel (s : String) : String :=
  String.mk (s.data.map (fun c => if c = ':' then '_' else c))

/-- A CSV row as produced by `csv.DictReader`: field name to raw text, in
header order. -/
abbrev Row := List (String × String)

/-- Python `row.get(k, d)`. -/
def rowGetD (row : Row) (k d : String) : String :=
  match row.find? (fun kv => kv.1 == k) with
  | some kv => kv.2
  | none => d

/-- Python `row.get(k, '')`. -/
def rowGet (row : Row) (k : String) : String := rowGetD row k ""

/-- Smart identifier handling: `int(x)` when the text is all digits,
otherwise the text kept as a string. -/
def idValue (s : String) : TypedValue :=
  if pyIsDigit s.data then .vint (digitsToNat s.data) else .vstr s

/-- Edge property-key cleanup: a key of the form `X:X` collapses to `X`
(the loader's defensive cleanup of a known upstream export artifact). -/
def cleanKey (k : String) : String :=
  match pySplitChar k ':' with
  | [a, b] => if a = b then a else k
  | _ => k

/-- First colon-delimited segment of a label
(`s.split(':')[0] if s and ':' in s else s`). -/
def firstSeg (s : String) : String :=
  match pySplitChar s ':' with
  | [] => s
  | a :: _ => a

/-- Structural edge-row keys that are never data properties. -/
def reservedEdgeKeys : List String := ["source", "target", "type", "source_label", "target_label"]

/-- One record of the node bulk payload: `{'id': ..., 'props': {...}}`. -/
structure NodeRec where
  id : TypedValue
  props : List (String × TypedValue)
deriving DecidableEq, Repr

/-- One record of the edge bulk payload: ids, truncated endpoint labels and
the data properties. -/
structure EdgeRec where
  sourceId : TypedValue
  targetId : TypedValue
  sourceLabel : String
  targetLabel : String
  props : List (String × TypedValue)
deriving DecidableEq, Repr

/-- Node data properties of a row: every field except `id`/`labels` with
nonempty text, typed by the node loader's value typing (which can raise). -/
def nodePropsE : Row → Except Unit (List (String × TypedValue))
  | [] => .ok []
  | (k, v) :: rest =>
    if k = "id" ∨ k = "labels" ∨ v = "" then nodePropsE rest
    else
      match nodeTypeValue v, nodePropsE rest with
      | .ok tv, .ok ps => .ok ((k, tv) :: ps)
      | .error e, _ => .error e
      | .ok _, .error e => .error e

/-- Translate one node row into its bulk-payload record.  No row is ever
dropped: a missing or empty `id` is kept as the empty string identifier. -/
def nodeTranslateRow (row : Row) : Except Unit NodeRec :=
  match nodePropsE row with
  | .ok ps => .ok ⟨idValue (rowGet row "id"), ps⟩
  | .error e => .error e

/-- Translate a node batch into its bulk payload (`batch_data`). -/
def nodeBatchData : List Row → Except Unit (List NodeRec)
  | [] => .ok []
  | row :: rest =>
    match nodeTranslateRow row, nodeBatchData rest with
    | .ok r, .ok rs => .ok (r :: rs)
    | .error e, _ => .error e
    | .ok _, .error e => .error e

/-- Edge data properties of a row: every field not among the reserved keys
with nonempty text, key cleaned up, typed by the edge loader's typing. -/
def edgePropsE : Row → Except Unit (List (String × TypedValue))
  | [] => .ok []
  | (k, v) :: rest =>
    if k ∈ reservedEdgeKeys ∨ v = "" then edgePropsE rest
    else
      match edgeTypeValue v, edgePropsE rest with
      | .ok tv, .ok ps => .ok ((cleanKey k, tv) :: ps)
      | .error e, _ => .error e
      | .ok _, .error e => .error e

/-- Translate one edge row into its bulk-payload record; rows with a missing
or empty `source` or `target` are dropped (`none`). -/
def edgeTranslateRow (row : Row) : Except Unit (Option EdgeRec) :=
  let src := rowGet row "source"
  let tgt := rowGet row "target"
  if src = "" ∨ tgt = "" then .ok none
  else
    match edgePropsE row with
    | .ok ps =>
      .ok (some ⟨idValue src, idValue tgt,
        firstSeg (pyStrip (rowGet row "source_label")),
        firstSeg (pyStrip (rowGet row "target_label")), ps⟩)
    | .error e => .error e

/-- Translate an edge batch into its bulk payload (`batch_data`). -/
def edgeBatchData : List Row → Except Unit (List EdgeRec)
  | [] => .ok []
  | row :: rest =>
    match edgeTranslateRow row, edgeBatchData rest with
    | .ok none, .ok rs => .ok rs
    | .ok (some r), .ok rs => .ok (r :: rs)
    | .error e, _ => .error e
    | .ok _, .error e => .error e

/-- Endpoint matching decision of an edge write. -/
inductive Matcher where
  | byLabel : String → String → Matcher
  | byId : Matcher
deriving DecidableEq, Repr

/-- Write and schema operations issued against the store, with their target
graph and their bound payloads. -/
inductive Op where
  | createIdIndex : String → String → Op
  | createIndex : String → String → String → Op
  | supportIndex : String → String → List String → Op
  | createConstraint : String → String → String → List String → Op
  | nodeBulk : String → String → Bool → List NodeRec → Op
  | nodeRow : String → String → Bool → NodeRec → Op
  | edgeBulk : String → String → Bool → Matcher → List EdgeRec → Op
  | edgeRow : String → String → Bool → Matcher → TypedValue → TypedValue →
      List (String × TypedValue) → Op
deriving DecidableEq, Repr

/-- Target graph named by an operation. -/
def opGraph : Op → String
  | .createIdIndex g _ => g
  | .createIndex g _ _ => g
  | .supportIndex g _ _ => g
  | .createConstraint g _ _ _ => g
  | .nodeBulk g _ _ _ => g
  | .nodeRow g _ _ _ => g
  | .edgeBulk g _ _ _ _ => g
  | .edgeRow g _ _ _ _ _ _ => g

/-- Phase of an operation inside one target graph's pipeline: the four schema
steps in their order, then node writes, then edge writes. -/
def phase : Op → Nat
  | .createIdIndex _ _ => 0
  | .createIndex _ _ _ => 1
  | .supportIndex _ _ _ => 2
  | .createConstraint _ _ _ _ => 3
  | .nodeBulk _ _ _ _ => 4
  | .nodeRow _ _ _ _ => 4
  | .edgeBulk _ _ _ _ _ => 5
  | .edgeRow _ _ _ _ _ _ _ => 5

/-- Loader state: the base graph name (`self.graph_name`), the currently
selected graph (`self.graph`), the source directory (`self.csv_dir`) and the
write mode. -/
structure LoaderState where
  graphName : String
  currentGraph : String
  csvDir : String
  mergeMode : Bool
deriving DecidableEq, Repr

/-- The graph store collaborator: decides whether an issued operation
succeeds. -/
abbrev Store := Op → Bool

/-- Contents of one source directory. -/
structure SourceDir where
  files : List String
  hasIndexesCsv : Bool
  indexRows : List Row
  hasConstraintsCsv : Bool
  constraintRows : List Row
  rowsOf : String → List Row
  subdirs : List String

/-- The filesystem collaborator: directory path to contents. -/
abbrev FileSys := String → SourceDir

/-- Node source files of a directory (prefix `nodes_`, suffix `.csv`). -/
def nodeFilesOf (d : SourceDir) : List String :=
  d.files.filter (fun f => strStartsWith f "nodes_" && strEndsWith f ".csv")

/-- Edge source files of a directory (prefix `edges_`, suffix `.csv`). -/
def edgeFilesOf (d : SourceDir) : List String :=
  d.files.filter (fun f => strStartsWith f "edges_" && strEndsWith f ".csv")

/-- Node label derived from a node file name, sanitized. -/
def nodeFileLabel (f : String) : String :=
  sanitizeLabel (pyReplace (pyReplace f "nodes_" "") ".csv" "")

/-- Relationship type derived from an edge file name (used verbatim). -/
def relTypeOf (f : String) : String :=
  pyReplace (pyReplace f "edges_" "") ".csv" ""

/-- Step 1 of schema provisioning (`create_id_indexes_for_all_labels`):
one id index per node label discovered among the node files. -/
def idIndexOps (st : LoaderState) (d : SourceDir) : List Op :=
  (nodeFilesOf d).map (fun f => Op.createIdIndex st.currentGraph (nodeFileLabel f))

/-- Index operations derived from one row of `indexes.csv`
(`create_indexes_from_csv` loop body). -/
def indexRowOps (st : LoaderState) (row : Row) : List Op :=
  let labels := pyStrip (rowGet row "labels")
  let properties := pyStrip (rowGet row "properties")
  let uniq := rowGetD row "uniqueness" "NON_UNIQUE"
  let indexType := pyUpper (rowGet row "type")
  if labels = "" ∨ properties = "" ∨ indexType = "LOOKUP" ∨ uniq = "UNIQUE" then []
  else
    (semiSplit labels).flatMap (fun l =>
      (semiSplit properties).map (fun p => Op.createIndex st.currentGraph l p))

/-- Step 2 of schema provisioning (`create_indexes_from_csv`). -/
def indexCsvOps (st : LoaderState) (d : SourceDir) : List Op :=
  if d.hasIndexesCsv then d.indexRows.flatMap (indexRowOps st) else []

/-- Supporting-index operations from one row of `constraints.csv`
(`create_supporting_indexes_for_constraints` loop body). -/
def supportRowOps (st : LoaderState) (row : Row) : List Op :=
  let labels := pyStrip (rowGet row "labels")
  let properties := pyStrip (rowGet row "properties")
  let ctype := pyUpper (rowGet row "type")
  if labels = "" ∨ properties = "" ∨ pyContains ctype "UNIQUE" = false then []
  else (semiSplit labels).map (fun l => Op.supportIndex st.currentGraph l (semiSplit properties))

/-- Step 3 of schema provisioning (`create_supporting_indexes_for_constraints`). -/
def supportOps (st : LoaderState) (d : SourceDir) : List Op :=
  if d.hasConstraintsCsv then d.constraintRows.flatMap (supportRowOps st) else []

/-- Constraint operations from one row of `constraints.csv`
(`create_constraints_from_csv` loop body).  The raw `GRAPH.CONSTRAINT CREATE`
command names `self.graph_name` — the loader's base graph name field, not the
currently selected graph. -/
def constraintRowOps (st : LoaderState) (row : Row) : List Op :=
  let labels := pyStrip (rowGet row "labels")
  let properties := pyStrip (rowGet row "properties")
  let ctype := pyUpper (rowGet row "type")
  let entity := pyUpper (rowGetD row "entity_type" "NODE")
  if labels = "" ∨ properties = "" then []
  else if pyContains ctype "UNIQUE" then
    (semiSplit labels).map (fun l =>
      Op.createConstraint st.graphName entity l (semiSplit properties))
  else []

/-- Step 4 of schema provisioning (`create_constraints_from_csv`). -/
def constraintOps (st : LoaderState) (d : SourceDir) : List Op :=
  if d.hasConstraintsCsv then d.constraintRows.flatMap (constraintRowOps st) else []

/-- Batch slicing worker; the fuel is bounded by the row count and each step
consumes at least one row, so it never runs out. -/
def chunksFuel : Nat → Nat → List α → List (List α)
  | _, _, [] => []
  | 0, _, l => [l]
  | Nat.succ fuel, n, c :: rest =>
    if n = 0 then []
    else (c :: rest).take n :: chunksFuel fuel n ((c :: rest).drop n)

/-- Batch slicing: `rows[i:i+batch_size]` for `i in range(0, len(rows),
batch_size)`; guarded against a zero batch size, which the CLI never passes. -/
def chunks (n : Nat) (l : List α) : List (List α) := chunksFuel l.length n l

/-- The node bulk write of one batch. -/
def nodeBulkOp (st : LoaderState) (label : String) (recs : List NodeRec) : Op :=
  Op.nodeBulk st.currentGraph label st.mergeMode recs

/-- The per-row node write of one record (the fallback form). -/
def nodeRowOp (st : LoaderState) (label : String) (r : NodeRec) : Op :=
  Op.nodeRow st.currentGraph label st.mergeMode r

/-- Execute one node batch (`load_nodes_batch` loop body): translate, submit
the bulk write, and on store failure replay the batch as one individual query
per row.  Result: issued operations, rows counted as loaded, and whether the
batch completed without an uncaught (translation) error. -/
def runNodeBatch (store : Store) (st : LoaderState) (label : String)
    (batch : List Row) : List Op × Nat × Bool :=
  match nodeBatchData batch with
  | .error _ => ([], 0, false)
  | .ok recs =>
    let bulk := nodeBulkOp st label recs
    if store bulk then ([bulk], batch.length, true)
    else
      let rowOps := recs.map (nodeRowOp st label)
      (bulk :: rowOps, (rowOps.filter store).length, true)

/-- Execute the node batches of one file in order; an uncaught translation
error aborts the remaining batches. -/
def runNodeChunks (store : Store) (st : LoaderState) (label : String) :
    List (List Row) → List Op × Nat × Bool
  | [] => ([], 0, true)
  | b :: bs =>
    match runNodeBatch store st label b with
    | (tr, n, false) => (tr, n, false)
    | (tr, n, true) =>
      let rest := runNodeChunks store st label bs
      (tr ++ rest.1, n + rest.2.1, rest.2.2)

/-- `load_nodes_batch`: label from the file name, rows sliced into batches. -/
def runNodeFile (store : Store) (st : LoaderState) (bsize : Nat) (d : SourceDir)
    (f : String) : List Op × Nat × Bool :=
  runNodeChunks store st (nodeFileLabel f) (chunks bsize (d.rowsOf f))

/-- The bulk endpoint-matching decision: taken from the first record of the
batch payload — both labels present there, or match by id alone. -/
def edgeBulkMatcher (recs : List EdgeRec) : Matcher :=
  match recs with
  | [] => .byId
  | r :: _ =>
    if r.sourceLabel = "" ∨ r.targetLabel = "" then .byId
    else .byLabel r.sourceLabel r.targetLabel

/-- The per-row endpoint-matching decision of the fallback query form, taken
from the row's own stripped labels before truncation. -/
def perRowMatcher (sl tl : String) : Matcher :=
  if sl = "" ∨ tl = "" then .byId
  else .byLabel (firstSeg sl) (firstSeg tl)

/-- The edge bulk write of one batch. -/
def edgeBulkOp (st : LoaderState) (rel : String) (recs : List EdgeRec) : Op :=
  Op.edgeBulk st.currentGraph rel st.mergeMode (edgeBulkMatcher recs) recs

/-- One entry of the edge `query_parts` fallback list (`load_edges_batch`,
first per-row loop): dropped rows produce no query. -/
def edgeRowQueryE (st : LoaderState) (rel : String) (row : Row) :
    Except Unit (Option Op) :=
  let src := rowGet row "source"
  let tgt := rowGet row "target"
  if src = "" ∨ tgt = "" then .ok none
  else
    match edgePropsE row with
    | .ok ps =>
      .ok (some (Op.edgeRow st.currentGraph rel st.mergeMode
        (perRowMatcher (pyStrip (rowGet row "source_label"))
          (pyStrip (rowGet row "target_label")))
        (idValue src) (idValue tgt) ps))
    | .error e => .error e

/-- The edge `query_parts` list of one batch. -/
def edgeQueryPartsE (st : LoaderState) (rel : String) :
    List Row → Except Unit (List Op)
  | [] => .ok []
  | row :: rest =>
    match edgeRowQueryE st rel row, edgeQueryPartsE st rel rest with
    | .ok none, .ok qs => .ok qs
    | .ok (some q), .ok qs => .ok (q :: qs)
    | .error e, _ => .error e
    | .ok _, .error e => .error e

/-- Execute one edge batch (`load_edges_batch` loop body): build the per-row
fallback queries and the bulk payload; if the payload is nonempty submit the
bulk write, and on store failure replay the per-row queries individually. -/
def runEdgeBatch (store : Store) (st : LoaderState) (rel : String)
    (batch : List Row) : List Op × Nat × Bool :=
  match edgeQueryPartsE st rel batch, edgeBatchData batch with
  | .ok qparts, .ok recs =>
    if recs.length = 0 then ([], 0, true)
    else
      let bulk := edgeBulkOp st rel recs
      if store bulk then ([bulk], recs.length, true)
      else (bulk :: qparts, (qparts.filter store).length, true)
  | .error _, _ => ([], 0, false)
  | .ok _, .error _ => ([], 0, false)

/-- Execute the edge batches of one file in order. -/
def runEdgeChunks (store : Store) (st : LoaderState) (rel : String) :
    List (List Row) → List Op × Nat × Bool
  | [] => ([], 0, true)
  | b :: bs =>
    match runEdgeBatch store st rel b with
    | (tr, n, false) => (tr, n, false)
    | (tr, n, true) =>
      let rest := runEdgeChunks store st rel bs
      (tr ++ rest.1, n + rest.2.1, rest.2.2)

/-- `load_edges_batch`: relationship type from the file name, rows sliced
into batches. -/
def runEdgeFile (store : Store) (st : LoaderState) (bsize : Nat) (d : SourceDir)
    (f : String) : List Op × Nat × Bool :=
  runEdgeChunks store st (relTypeOf f) (chunks bsize (d.rowsOf f))

/-- Load all node files in listing order; an uncaught error aborts the rest. -/
def runNodeFiles (store : Store) (st : LoaderState) (bsize : Nat) (d : SourceDir) :
    List String → List Op × Bool
  | [] => ([], true)
  | f :: rest =>
    match runNodeFile store st bsize d f with
    | (tr, _, false) => (tr, false)
    | (tr, _, true) =>
      let r := runNodeFiles store st bsize d rest
      (tr ++ r.1, r.2)

/-- Load all edge files in listing order. -/
def runEdgeFiles (store : Store) (st : LoaderState) (bsize : Nat) (d : SourceDir) :
    List String → List Op × Bool
  | [] => ([], true)
  | f :: rest =>
    match runEdgeFile store st bsize d f with
    | (tr, _, false) => (tr, false)
    | (tr, _, true) =>
      let r := runEdgeFiles store st bsize d rest
      (tr ++ r.1, r.2)

/-- `_load_single_graph_csvs`: the four schema steps in order, then every
node file, then every edge file.  Returns the issued operations (a prefix up
to any uncaught error) and a completion flag. -/
def loadSingleGraph (store : Store) (fsys : FileSys) (st : LoaderState)
    (bsize : Nat) : List Op × Bool :=
  let d := fsys st.csvDir
  let schema := idIndexOps st d ++ indexCsvOps st d ++ supportOps st d ++ constraintOps st d
  match runNodeFiles store st bsize d (nodeFilesOf d) with
  | (ntr, false) => (schema ++ ntr, false)
  | (ntr, true) =>
    let e := runEdgeFiles store st bsize d (edgeFilesOf d)
    (schema ++ ntr ++ e.1, e.2)

/-- Lexicographic order on texts by code point, as Python compares strings. -/
def listLtChars : List Char → List Char → Bool
  | [], [] => false
  | [], _ :: _ => true
  | _ :: _, [] => false
  | a :: as, b :: bs =>
    if a.toNat < b.toNat then true
    else if b.toNat < a.toNat then false
    else listLtChars as bs

/-- Python `a < b` on strings. -/
def strLt (a b : String) : Bool := listLtChars a.data b.data

/-- Python `sorted` on strings (ascending lexicographic). -/
def insertStr (x : String) : List String → List String
  | [] => [x]
  | y :: ys => if strLt y x then y :: insertStr x ys else x :: y :: ys

/-- Python `sorted` on a list of strings. -/
def sortStr : List String → List String
  | [] => []
  | x :: xs => insertStr x (sortStr xs)

/-- Tenant name: the directory name with every `tenant_` occurrence removed. -/
def tenantName (d : String) : String := pyReplace d "tenant_" ""

/-- Process the tenant directories in order (`_load_multi_graph_csvs` loop):
retarget graph and source directory, run the single-graph pipeline with its
failure caught, and restore the source directory in the `finally` block. -/
def loadMultiTenants (store : Store) (fsys : FileSys) (bsize : Nat) :
    LoaderState → List String → List Op × LoaderState
  | st, [] => ([], st)
  | st, d :: ds =>
    let tpath := st.csvDir ++ "/" ++ d
    let g := st.graphName ++ "_" ++ tenantName d
    let stTenant : LoaderState := { st with currentGraph := g, csvDir := tpath }
    let run := loadSingleGraph store fsys stTenant bsize
    let stAfter : LoaderState := { stTenant with csvDir := st.csvDir }
    let rest := loadMultiTenants store fsys bsize stAfter ds
    (run.1 ++ rest.1, rest.2)

/-- `_load_multi_graph_csvs`: tenant subdirectories (name prefix `tenant_`),
sorted; with none present, fall back to single-graph mode. -/
def loadMulti (store : Store) (fsys : FileSys) (st : LoaderState)
    (bsize : Nat) : List Op × LoaderState :=
  let subs := (fsys st.csvDir).subdirs.filter (fun d => strStartsWith d "tenant_")
  if subs.length = 0 then ((loadSingleGraph store fsys st bsize).1, st)
  else loadMultiTenants store fsys bsize st (sortStr subs)

/-- Number of occurrences of an element in a list. -/
def occ [DecidableEq α] (x : α) (l : List α) : Nat :=
  (l.filter (fun y => y = x)).length

/-- A store that accepts every operation. -/
def storeTrue : Store := fun _ => true

/-- An empty source directory. -/
def emptyDir : SourceDir :=
  ⟨[], false, [], false, [], fun _ => [], []⟩

/-- Concrete multi-tenant scenario: root with tenants `tenant_a` and
`tenant_b`; tenant a has one node file and one UNIQUE constraint row. -/
def fsEx : FileSys := fun p =>
  if p = "root" then
    { emptyDir with subdirs := ["tenant_a", "tenant_b"] }
  else if p = "root/tenant_a" then
    { files := ["nodes_Person.csv"]
      hasIndexesCsv := false
      indexRows := []
      hasConstraintsCsv := true
      constraintRows := [[("labels", "Person"), ("properties", "id"),
        ("type", "UNIQUE"), ("entity_type", "NODE")]]
      rowsOf := fun f => if f = "nodes_Person.csv" then [[("id", "1"), ("name", "Alice")]] else []
      subdirs := [] }
  else emptyDir

/-- Initial loader state of the concrete scenario: base graph `g`. -/
def stEx : LoaderState := ⟨"g", "g", "root", false⟩

/-- Whether an `Except` computation finished without raising. -/
def exceptIsOk : Except Unit α → Bool
  | .ok _ => true
  | .error _ => false

theorem lstripMinus_cons_ne (c : Char) (l : List Char) (h : c ≠ '-') :
    lstripMinus (c :: l) = c :: l := by
  simp [lstripMinus, h]

theorem lstripMinus_head_ne (l : List Char) (h : l.head? ≠ some '-') :
    lstripMinus l = l := by
  cases l with
  | nil => rfl
  | cons c r =>
    refine lstripMinus_cons_ne c r ?_
    intro hc
    exact h (by simp [hc])

theorem isDigit_ne_minus {c : Char} (h : c.isDigit = true) : c ≠ '-' := by
  intro hc; subst hc; exact absurd h (by decide)

theorem isDigit_ne_dot {c : Char} (h : c.isDigit = true) : c ≠ '.' := by
  intro hc; subst hc; exact absurd h (by decide)

theorem lstripMinus_of_all_digit (l : List Char) (h : l.all Char.isDigit = true) :
    lstripMinus l = l := by
  cases l with
  | nil => rfl
  | cons c r =>
    simp only [List.all_cons, Bool.and_eq_true] at h
    exact lstripMinus_cons_ne c r (isDigit_ne_minus h.1)

theorem pDigitDot_ne_sign {c : Char} (h : pDigitDot c = true) : c ≠ '+' ∧ c ≠ '-' := by
  unfold pDigitDot at h
  rcases Bool.or_eq_true_iff.mp h with h1 | h1
  · exact ⟨fun hc => by subst hc; exact absurd h1 (by decide),
      fun hc => by subst hc; exact absurd h1 (by decide)⟩
  · have hc : c = '.' := by
      have := of_decide_eq_true h1
      exact this
    subst hc
    exact ⟨by decide, by decide⟩

theorem pDigitDot_not_exp {c : Char} (h : pDigitDot c = true) :
    (!(c = 'e' || c = 'E')) = true := by
  unfold pDigitDot at h
  rcases Bool.or_eq_true_iff.mp h with h1 | h1
  · have he : c ≠ 'e' := fun hc => by subst hc; exact absurd h1 (by decide)
    have hE : c ≠ 'E' := fun hc => by subst hc; exact absurd h1 (by decide)
    simp [he, hE]
  · have hc : c = '.' := of_decide_eq_true h1
    subst hc; decide

theorem all_digit_of_noDot (l : List Char) (h : l.all pDigitDot = true)
    (hd : dotCount l = 0) : l.all Char.isDigit = true := by
  induction l with
  | nil => rfl
  | cons c r ih =>
    simp only [List.all_cons, Bool.and_eq_true] at h ⊢
    unfold dotCount at hd
    by_cases hc : c = '.'
    · rw [if_pos hc] at hd; omega
    · rw [if_neg hc] at hd
      refine ⟨?_, ih h.2 (by omega)⟩
      unfold pDigitDot at h
      rcases Bool.or_eq_true_iff.mp h.1 with h1 | h1
      · exact h1
      · exact absurd (of_decide_eq_true h1) hc

theorem replaceFirst_all_digit (l : List Char) (h : l.all pDigitDot = true)
    (hd : dotCount l ≤ 1) : (replaceFirst '.' l).all Char.isDigit = true := by
  induction l with
  | nil => rfl
  | cons c r ih =>
    simp only [List.all_cons, Bool.and_eq_true] at h
    unfold dotCount at hd
    unfold replaceFirst
    by_cases hc : c = '.'
    · rw [if_pos (by rw [hc])]
      rw [if_pos hc] at hd
      exact all_digit_of_noDot r h.2 (by omega)
    · rw [if_neg (fun he => hc (by rw [he]))]
      rw [if_neg hc] at hd
      simp only [List.all_cons, Bool.and_eq_true]
      refine ⟨?_, ih h.2 (by omega)⟩
      unfold pDigitDot at h
      rcases Bool.or_eq_true_iff.mp h.1 with h1 | h1
      · exact h1
      · exact absurd (of_decide_eq_true h1) hc

theorem replaceFirst_any_digit (l : List Char) (h : l.all pDigitDot = true)
    (ha : l.any Char.isDigit = true) : (replaceFirst '.' l).any Char.isDigit = true := by
  induction l with
  | nil => exact absurd ha (by decide)
  | cons c r ih =>
    simp only [List.all_cons, Bool.and_eq_true] at h
    simp only [List.any_cons, Bool.or_eq_true_iff] at ha
    unfold replaceFirst
    by_cases hc : c = '.'
    · rw [if_pos (by rw [hc])]
      rcases ha with h1 | h1
      · exact absurd h1 (by subst hc; decide)
      · exact h1
    · rw [if_neg (fun he => hc (by rw [he]))]
      simp only [List.any_cons, Bool.or_eq_true_iff]
      rcases ha with h1 | h1
      · exact Or.inl h1
      · exact Or.inr (ih h.2 h1)

theorem ne_nil_of_any (l : List Char) (h : l.any Char.isDigit = true) : l ≠ [] := by
  intro hl; subst hl; exact absurd h (by decide)

theorem pyIsDigit_of (l : List Char) (hne : l ≠ []) (hall : l.all Char.isDigit = true) :
    pyIsDigit l = true := by
  cases l with
  | nil => exact absurd rfl hne
  | cons c r => simp [pyIsDigit, hall]

theorem takeWhile_all_eq (q : Char → Bool) (l : List Char)
    (h : ∀ c ∈ l, q c = true) : l.takeWhile q = l := by
  induction l with
  | nil => rfl
  | cons c r ih =>
    rw [List.takeWhile_cons, h c (by simp)]
    simp [ih (fun x hx => h x (by simp [hx]))]

theorem dropWhile_all_eq (q : Char → Bool) (l : List Char)
    (h : ∀ c ∈ l, q c = true) : l.dropWhile q = [] := by
  induction l with
  | nil => rfl
  | cons c r ih =>
    rw [List.dropWhile_cons, h c (by simp)]
    simp [ih (fun x hx => h x (by simp [hx]))]

theorem dotCount_append (a b : List Char) :
    dotCount (a ++ b) = dotCount a + dotCount b := by
  induction a with
  | nil => simp [dotCount]
  | cons c r ih => simp [dotCount, ih]; omega

theorem dot_split (l : List Char) (x : Char) (b : List Char)
    (h : l.dropWhile (fun c => c ≠ '.') = x :: b) :
    x = '.' ∧ l = l.takeWhile (fun c => c ≠ '.') ++ '.' :: b ∧
      dotCount (l.takeWhile (fun c => c ≠ '.')) = 0 := by
  induction l with
  | nil => exact absurd h (by simp)
  | cons c r ih =>
    by_cases hc : c = '.'
    · rw [List.dropWhile_cons, if_neg (by simp [hc])] at h
      rw [List.takeWhile_cons, if_neg (by simp [hc])]
      injection h with h1 h2
      subst h1; subst h2
      refine ⟨hc, ?_, rfl⟩
      rw [List.nil_append, hc]
    · rw [List.dropWhile_cons, if_pos (by simp [hc])] at h
      rw [List.takeWhile_cons, if_pos (by simp [hc])]
      obtain ⟨hx, hsplit, hcnt⟩ := ih h
      refine ⟨hx, by rw [List.cons_append, ← hsplit], ?_⟩
      unfold dotCount
      rw [if_neg hc, hcnt]

theorem dotCount_eq_zero_of_not_mem (l : List Char) (h : ('.') ∉ l) : dotCount l = 0 := by
  induction l with
  | nil => rfl
  | cons c r ih =>
    simp only [List.mem_cons, not_or] at h
    unfold dotCount
    rw [if_neg (fun he => h.1 he.symm)]
    simp [ih h.2]

theorem mantissa_of_spec (l : List Char) (h : l.all pDigitDot = true)
    (hd : dotCount l ≤ 1) (ha : l.any Char.isDigit = true) : mantissaOk l = true := by
  unfold mantissaOk
  cases hdw : l.dropWhile (fun c => c ≠ '.') with
  | nil =>
    have hmem : ('.') ∉ l := by
      intro hm
      have hall := List.dropWhile_eq_nil_iff.mp hdw
      have := hall ('.') hm
      simp at this
    simp only [digits1]
    simp [all_digit_of_noDot l h (dotCount_eq_zero_of_not_mem l hmem), ne_nil_of_any l ha]
  | cons x b =>
    obtain ⟨hx, hsplit, hcnt⟩ := dot_split l x b hdw
    have hall2 := h
    rw [hsplit] at hall2
    simp only [List.all_append, List.all_cons, Bool.and_eq_true] at hall2
    have hta : (l.takeWhile (fun c => c ≠ '.')).all Char.isDigit = true :=
      all_digit_of_noDot _ hall2.1 hcnt
    have hcb : dotCount b = 0 := by
      have hthis := hd
      have hdot : dotCount ('.' :: b) = 1 + dotCount b := by
        simp [dotCount]
      rw [hsplit, dotCount_append, hdot, hcnt] at hthis
      omega
    have htb : b.all Char.isDigit = true := all_digit_of_noDot b hall2.2.2 hcb
    have hne : l.takeWhile (fun c => c ≠ '.') ++ b ≠ [] := by
      have hany := ha
      rw [hsplit] at hany
      simp only [List.any_append, List.any_cons, Bool.or_eq_true_iff] at hany
      rcases hany with h1 | h1 | h1
      · intro hcontra
        rcases List.append_eq_nil.mp hcontra with ⟨he, _⟩
        rw [he] at h1
        exact absurd h1 (by decide)
      · exact absurd h1 (by decide)
      · intro hcontra
        rcases List.append_eq_nil.mp hcontra with ⟨_, he⟩
        rw [he] at h1
        exact absurd h1 (by decide)
    have hbne : ((l.takeWhile (fun c => c ≠ '.')) ++ b).isEmpty = false := by
      cases hcase : (l.takeWhile (fun c => c ≠ '.')) ++ b with
      | nil => exact absurd hcase hne
      | cons y ys => rfl
    show ((l.takeWhile (fun c => c ≠ '.')).all Char.isDigit && b.all Char.isDigit &&
      !((l.takeWhile (fun c => c ≠ '.')) ++ b).isEmpty) = true
    rw [hta, htb, hbne]
    rfl

theorem dropOneMinus_cons_minus (r : List Char) : dropOneMinus ('-' :: r) = r := by
  simp [dropOneMinus]

theorem dropOneMinus_cons_ne (c : Char) (r : List Char) (h : c ≠ '-') :
    dropOneMinus (c :: r) = c :: r := by
  simp [dropOneMinus, h]

theorem spec_float_core (l : List Char)
    (h : (dropOneMinus l).all pDigitDot = true)
    (hd : dotCount (dropOneMinus l) ≤ 1)
    (ha : (dropOneMinus l).any Char.isDigit = true) :
    nodeFloatTest l = true ∧ pyFloatLit l = true := by
  cases l with
  | nil => exact absurd ha (by decide)
  | cons c r =>
    by_cases hc : c = '-'
    · subst hc
      rw [dropOneMinus_cons_minus] at h hd ha
      constructor
      · unfold nodeFloatTest
        have h1 : replaceFirst '.' ('-' :: r) = '-' :: replaceFirst '.' r := rfl
        rw [h1]
        have h2 : lstripMinus ('-' :: replaceFirst '.' r) = lstripMinus (replaceFirst '.' r) := by
          simp [lstripMinus]
        rw [h2, lstripMinus_of_all_digit _ (replaceFirst_all_digit r h hd)]
        exact pyIsDigit_of _ (ne_nil_of_any _ (replaceFirst_any_digit r h ha))
          (replaceFirst_all_digit r h hd)
      · unfold pyFloatLit
        have hds : dropSign ('-' :: r) = r := by simp [dropSign]
        rw [hds]
        have hnoE : ∀ c2 ∈ r, (!(c2 = 'e' || c2 = 'E')) = true :=
          fun c2 hc2 => pDigitDot_not_exp ((List.all_eq_true.mp h) c2 hc2)
        rw [takeWhile_all_eq _ r hnoE, dropWhile_all_eq _ r hnoE,
          mantissa_of_spec r h hd ha]
        rfl
    · rw [dropOneMinus_cons_ne c r hc] at h hd ha
      constructor
      · unfold nodeFloatTest
        rw [lstripMinus_of_all_digit _ (replaceFirst_all_digit _ h hd)]
        exact pyIsDigit_of _ (ne_nil_of_any _ (replaceFirst_any_digit _ h ha))
          (replaceFirst_all_digit _ h hd)
      · unfold pyFloatLit
        have hhead : pDigitDot c = true := (List.all_eq_true.mp h) c (by simp)
        have hsign := pDigitDot_ne_sign hhead
        have hds : dropSign (c :: r) = c :: r := by
          simp [dropSign, hsign.1, hsign.2]
        rw [hds]
        have hnoE : ∀ c2 ∈ (c :: r), (!(c2 = 'e' || c2 = 'E')) = true :=
          fun c2 hc2 => pDigitDot_not_exp ((List.all_eq_true.mp h) c2 hc2)
        rw [takeWhile_all_eq _ _ hnoE, dropWhile_all_eq _ _ hnoE,
          mantissa_of_spec _ h hd ha]
        rfl

theorem spec_float_branch (s : String) (hs : specIsDecimal s = true) :
    nodeFloatTest s.data = true ∧ pyFloatLit s.data = true := by
  simp only [specIsDecimal, Bool.and_eq_true, decide_eq_true_eq] at hs
  exact spec_float_core s.data hs.1.1 hs.1.2 hs.2

theorem specIsDecimal_nonempty (s : String) (hs : specIsDecimal s = true) :
    s.data.isEmpty = false := by
  simp only [specIsDecimal, Bool.and_eq_true, decide_eq_true_eq] at hs
  cases hl : s.data with
  | nil =>
    rw [hl] at hs
    exact absurd hs.2 (by decide)
  | cons c r => rfl

theorem data_isEmpty_false_of_ne (s : String) (hs : s ≠ "") : s.data.isEmpty = false := by
  cases hl : s.data with
  | nil => exact absurd (String.ext hl) hs
  | cons c r => rfl

/-- C2: the claim fails on the code.  Per the claim, the text `--5` (nonempty,
not all digits, not a decimal number with at most one dot and an optional
single leading minus) must be returned as a String without raising; the node
loader's float test accepts it (replace one dot, strip ALL leading minuses)
and `float('--5')` then raises ValueError. -/
theorem C2_counterexample :
    nodeTypeValue "--5" = .error () ∧ specIsDecimal "--5" = false ∧
      pyIsDigit "--5".data = false ∧ "--5" ≠ "" := by
  refine ⟨by decide, by decide, by decide, by decide⟩

/-- C2 (amended): value typing is a pure function of the text; it returns
Null on empty text, Integer on an all-digit text, Float on every text of the
claimed grammar (optional single leading minus, digits, at most one dot),
and String whenever the code's float-branch test — remove the first dot,
then strip all leading minuses, then test for digits — fails; texts that
pass that test without being valid float literals (e.g. `--5`) raise. -/
theorem C2_value_typing_amended (s : String) :
    (s = "" → nodeTypeValue s = .ok .vnull) ∧
    (pyIsDigit s.data = true → nodeTypeValue s = .ok (.vint (digitsToNat s.data))) ∧
    (pyIsDigit s.data = false → specIsDecimal s = true → nodeTypeValue s = .ok (.vfloat s)) ∧
    (s ≠ "" → pyIsDigit s.data = false → nodeFloatTest s.data = false →
      nodeTypeValue s = .ok (.vstr s)) := by
  refine ⟨?_, ?_, ?_, ?_⟩
  · intro h; subst h; rfl
  · intro h
    have hne : s.data.isEmpty = false := by
      cases hl : s.data with
      | nil => rw [hl] at h; exact absurd h (by decide)
      | cons c r => rfl
    simp [nodeTypeValue, hne, h]
  · intro hd hs
    obtain ⟨hft, hlit⟩ := spec_float_branch s hs
    simp [nodeTypeValue, specIsDecimal_nonempty s hs, hd, hft, hlit]
  · intro hs hd hft
    simp [nodeTypeValue, data_isEmpty_false_of_ne s hs, hd, hft]

/-- C2 witness: the amended theorem applied at the concrete text `-3.5`. -/
theorem C2_value_typing_amended_witness :
    pyIsDigit "-3.5".data = false ∧ specIsDecimal "-3.5" = true ∧
      nodeTypeValue "-3.5" = .ok (.vfloat "-3.5") :=
  ⟨by decide, by decide, (C2_value_typing_amended "-3.5").2.2.1 (by decide) (by decide)⟩

/-- C3: the claim fails on the code.  The node loader types `-5` as Float
(its float test strips the leading minus) while the edge loader types the
same text as String (its float test does not). -/
theorem C3_counterexample :
    nodeTypeValue "-5" = .ok (.vfloat "-5") ∧ edgeTypeValue "-5" = .ok (.vstr "-5") ∧
      (Except.ok (TypedValue.vfloat "-5") : Except Unit TypedValue) ≠ .ok (.vstr "-5") := by
  refine ⟨by decide, by decide, by decide⟩

/-- C3 (amended): the node and edge loaders assign the same TypedValue to
every text whose first-dot-removal does not begin with a minus; they can
disagree on texts such as `-5`. -/
theorem C3_loader_agreement_amended (s : String)
    (h : (replaceFirst '.' s.data).head? ≠ some '-') :
    nodeTypeValue s = edgeTypeValue s := by
  have ht : nodeFloatTest s.data = edgeFloatTest s.data := by
    unfold nodeFloatTest edgeFloatTest
    rw [lstripMinus_head_ne _ h]
  simp [nodeTypeValue, edgeTypeValue, ht]

/-- C3 witness: the amended theorem applied at the concrete text `3.5`. -/
theorem C3_loader_agreement_amended_witness :
    (replaceFirst '.' "3.5".data).head? ≠ some '-' ∧
      nodeTypeValue "3.5" = edgeTypeValue "3.5" :=
  ⟨by decide, C3_loader_agreement_amended "3.5" (by decide)⟩

theorem nodeProps_mem (row : Row) (ps : List (String × TypedValue))
    (h : nodePropsE row = .ok ps) :
    ∀ p ∈ ps, p.1 ≠ "id" ∧ p.1 ≠ "labels" ∧ ∃ v, (p.1, v) ∈ row ∧ v ≠ "" := by
  induction row generalizing ps with
  | nil =>
    simp only [nodePropsE, Except.ok.injEq] at h
    subst h
    intro p hp
    exact absurd hp (by simp)
  | cons kv rest ih =>
    obtain ⟨k, v⟩ := kv
    by_cases hcond : k = "id" ∨ k = "labels" ∨ v = ""
    · rw [nodePropsE, if_pos hcond] at h
      intro p hp
      obtain ⟨h1, h2, v2, hm, hv2⟩ := ih ps h p hp
      exact ⟨h1, h2, v2, List.mem_cons_of_mem _ hm, hv2⟩
    · push_neg at hcond
      rw [nodePropsE, if_neg (by push_neg; exact hcond)] at h
      cases h1 : nodeTypeValue v with
      | error e => rw [h1] at h; simp at h
      | ok tv =>
        cases h2 : nodePropsE rest with
        | error e => rw [h1, h2] at h; simp at h
        | ok ps0 =>
          rw [h1, h2] at h
          simp only [Except.ok.injEq] at h
          subst h
          intro p hp
          rcases List.mem_cons.mp hp with hph | hp0
          · subst hph
            exact ⟨hcond.1, hcond.2.1, v, List.mem_cons_self _ _, hcond.2.2⟩
          · obtain ⟨a1, a2, v2, hm, hv2⟩ := ih ps0 h2 p hp0
            exact ⟨a1, a2, v2, List.mem_cons_of_mem _ hm, hv2⟩

theorem edgeProps_mem (row : Row) (ps : List (String × TypedValue))
    (h : edgePropsE row = .ok ps) :
    ∀ p ∈ ps, ∃ k v, (k, v) ∈ row ∧ v ≠ "" ∧ k ∉ reservedEdgeKeys ∧ p.1 = cleanKey k := by
  induction row generalizing ps with
  | nil =>
    simp only [edgePropsE, Except.ok.injEq] at h
    subst h
    intro p hp
    exact absurd hp (by simp)
  | cons kv rest ih =>
    obtain ⟨k, v⟩ := kv
    by_cases hcond : k ∈ reservedEdgeKeys ∨ v = ""
    · rw [edgePropsE, if_pos hcond] at h
      intro p hp
      obtain ⟨k2, v2, hm, hv2, hres, hck⟩ := ih ps h p hp
      exact ⟨k2, v2, List.mem_cons_of_mem _ hm, hv2, hres, hck⟩
    · push_neg at hcond
      rw [edgePropsE, if_neg (by push_neg; exact hcond)] at h
      cases h1 : edgeTypeValue v with
      | error e => rw [h1] at h; simp at h
      | ok tv =>
        cases h2 : edgePropsE rest with
        | error e => rw [h1, h2] at h; simp at h
        | ok ps0 =>
          rw [h1, h2] at h
          simp only [Except.ok.injEq] at h
          subst h
          intro p hp
          rcases List.mem_cons.mp hp with hph | hp0
          · subst hph
            exact ⟨k, v, List.mem_cons_self _ _, hcond.2, hcond.1, rfl⟩
          · obtain ⟨k2, v2, hm, hv2, hres, hck⟩ := ih ps0 h2 p hp0
            exact ⟨k2, v2, List.mem_cons_of_mem _ hm, hv2, hres, hck⟩

/-- C4: the claim fails on the code for node rows.  A node row whose `id`
field is empty is not dropped: it is translated into a payload record with an
empty-string identifier, and the bulk write containing that record is issued. -/
theorem C4_counterexample :
    nodeTranslateRow [("id", ""), ("name", "Alice")] =
      .ok ⟨.vstr "", [("name", .vstr "Alice")]⟩ ∧
    runNodeBatch storeTrue stEx "Person" [[("id", ""), ("name", "Alice")]] =
      ([Op.nodeBulk "g" "Person" false [⟨.vstr "", [("name", .vstr "Alice")]⟩]], 1, true) := by
  refine ⟨by decide, by decide⟩

/-- C4 (amended): edge rows with a missing or empty `source` or `target` are
silently dropped (no write, no error), as claimed; node rows with a missing
or empty `id` are NOT dropped — they are translated into a write whose
identifier is the empty string, without error. -/
theorem C4_row_dropping_amended (row : Row) :
    (rowGet row "source" = "" ∨ rowGet row "target" = "" → edgeTranslateRow row = .ok none) ∧
    (rowGet row "id" = "" → ∀ r, nodeTranslateRow row = .ok r → r.id = .vstr "") := by
  constructor
  · intro h
    simp only [edgeTranslateRow]
    rw [if_pos h]
  · intro h r hr
    unfold nodeTranslateRow at hr
    cases hp : nodePropsE row with
    | error e => rw [hp] at hr; simp at hr
    | ok ps =>
      rw [hp] at hr
      simp only [Except.ok.injEq] at hr
      rw [← hr]
      show idValue (rowGet row "id") = .vstr ""
      rw [h]
      rfl

/-- C4 witness: the amended theorem applied at an edge row lacking `source`
and at a node row with an empty `id`. -/
theorem C4_row_dropping_amended_witness :
    edgeTranslateRow [("target", "2"), ("w", "7")] = .ok none ∧
      (NodeRec.mk (.vstr "") [("name", .vstr "Alice")]).id = .vstr "" :=
  ⟨(C4_row_dropping_amended [("target", "2"), ("w", "7")]).1 (Or.inl (by decide)),
   (C4_row_dropping_amended [("id", ""), ("name", "Alice")]).2 (by decide)
     ⟨.vstr "", [("name", .vstr "Alice")]⟩ (by decide)⟩

/-- C9: the claim fails on the code for edge rows.  The duplicate-prefix key
cleanup collapses a column named `source:source` to the reserved key
`source`, which then appears in the bound property payload. -/
theorem C9_counterexample :
    edgeTranslateRow [("source", "1"), ("target", "2"), ("source:source", "x")] =
      .ok (some ⟨.vint 1, .vint 2, "", "", [("source", .vstr "x")]⟩) ∧
    "source" ∈ reservedEdgeKeys := by
  refine ⟨by decide, by decide⟩

/-- C9 (amended): translated payloads contain no entry for a field with empty
raw text.  Node payload keys are the raw column names and are never `id` or
`labels`.  Edge payload keys are never a reserved column name directly, but
are the images of non-reserved column names under the `X:X → X` cleanup,
which can itself produce a reserved key (e.g. from a column `source:source`). -/
theorem C9_property_payload_amended (row : Row) :
    (∀ r, nodeTranslateRow row = .ok r → ∀ p ∈ r.props,
      p.1 ≠ "id" ∧ p.1 ≠ "labels" ∧ ∃ v, (p.1, v) ∈ row ∧ v ≠ "") ∧
    (∀ r, edgeTranslateRow row = .ok (some r) → ∀ p ∈ r.props,
      ∃ k v, (k, v) ∈ row ∧ v ≠ "" ∧ k ∉ reservedEdgeKeys ∧ p.1 = cleanKey k) := by
  constructor
  · intro r hr
    unfold nodeTranslateRow at hr
    cases hp : nodePropsE row with
    | error e => rw [hp] at hr; simp at hr
    | ok ps =>
      rw [hp] at hr
      simp only [Except.ok.injEq] at hr
      rw [← hr]
      exact nodeProps_mem row ps hp
  · intro r hr
    simp only [edgeTranslateRow] at hr
    by_cases hcond : rowGet row "source" = "" ∨ rowGet row "target" = ""
    · rw [if_pos hcond] at hr
      simp at hr
    · rw [if_neg hcond] at hr
      cases hp : edgePropsE row with
      | error e => rw [hp] at hr; simp at hr
      | ok ps =>
        rw [hp] at hr
        simp only [Except.ok.injEq, Option.some.injEq] at hr
        rw [← hr]
        exact edgeProps_mem row ps hp

/-- C9 witness: the amended theorem applied at a concrete edge row with a
data property `w`. -/
theorem C9_property_payload_amended_witness :
    ∃ k v, (k, v) ∈ ([("source", "1"), ("target", "2"), ("w", "0.5")] : Row) ∧
      v ≠ "" ∧ k ∉ reservedEdgeKeys ∧
      (("w", TypedValue.vfloat "0.5") : String × TypedValue).1 = cleanKey k :=
  (C9_property_payload_amended [("source", "1"), ("target", "2"), ("w", "0.5")]).2
    ⟨.vint 1, .vint 2, "", "", [("w", .vfloat "0.5")]⟩ (by decide)
    ("w", .vfloat "0.5") (by decide)

/-- C1: the code contradicts the multi-tenant isolation the claim (and the
loader's own documentation) requires.  In the concrete two-tenant scenario
with base graph `g`, id-index, supporting-index and node-load operations all
target `g_a`, but the unique-constraint command names the loader's base
graph-name field and therefore targets `g` itself. -/
theorem C1_constraint_hits_base_graph :
    Op.createConstraint "g" "NODE" "Person" ["id"] ∈ (loadMulti storeTrue fsEx stEx 100).1 ∧
    opGraph (Op.createConstraint "g" "NODE" "Person" ["id"]) = "g" ∧
    (∀ op ∈ (loadMulti storeTrue fsEx stEx 100).1,
      op ≠ Op.createConstraint "g" "NODE" "Person" ["id"] →
        opGraph op = "g_a" ∨ opGraph op = "g_b") := by
  refine ⟨by decide, by decide, by decide⟩

theorem loadMultiTenants_state (store : Store) (fsys : FileSys) (bsize : Nat) :
    ∀ (ds : List String) (st : LoaderState),
      (loadMultiTenants store fsys bsize st ds).2.csvDir = st.csvDir ∧
      (loadMultiTenants store fsys bsize st ds).2.graphName = st.graphName := by
  intro ds
  induction ds with
  | nil => intro st; exact ⟨rfl, rfl⟩
  | cons d rest ih =>
    intro st
    simp only [loadMultiTenants]
    exact ⟨(ih _).1, (ih _).2⟩

/-- C10: multi-tenant orchestration restores the source-directory field in
its `finally` block on every iteration, so after the whole orchestration the
field equals its initial value (for every store behavior, including tenant
pipelines that fail); the base graph-name field is likewise untouched. -/
theorem C10_csv_dir_restored (store : Store) (fsys : FileSys) (st : LoaderState)
    (bsize : Nat) :
    (loadMulti store fsys st bsize).2.csvDir = st.csvDir ∧
    (loadMulti store fsys st bsize).2.graphName = st.graphName := by
  simp only [loadMulti]
  split
  · exact ⟨rfl, rfl⟩
  · exact ⟨(loadMultiTenants_state store fsys bsize _ st).1,
      (loadMultiTenants_state store fsys bsize _ st).2⟩

theorem occ_cons [DecidableEq α] (x y : α) (l : List α) :
    occ x (y :: l) = (if y = x then 1 else 0) + occ x l := by
  by_cases h : y = x
  · simp [occ, List.filter_cons, h]
    omega
  · simp [occ, List.filter_cons, h]

theorem occ_append [DecidableEq α] (x : α) (l1 l2 : List α) :
    occ x (l1 ++ l2) = occ x l1 + occ x l2 := by
  simp [occ, List.filter_append]

theorem occ_map_createIndex (g a : String) (ps : List String) (l p : String) :
    occ (Op.createIndex g l p) (ps.map (fun b => Op.createIndex g a b)) =
      if a = l then occ p ps else 0 := by
  induction ps with
  | nil => simp [occ]
  | cons b ps ih =>
    rw [List.map_cons, occ_cons, ih, occ_cons]
    by_cases ha : a = l
    · by_cases hb : b = p
      · simp [Op.createIndex.injEq, ha, hb]
      · simp [Op.createIndex.injEq, ha, hb]
    · simp [Op.createIndex.injEq, ha]

theorem occ_cross (g : String) (ls ps : List String) (l p : String) :
    occ (Op.createIndex g l p)
      (ls.flatMap (fun a => ps.map (fun b => Op.createIndex g a b))) =
      occ l ls * occ p ps := by
  induction ls with
  | nil => simp [occ]
  | cons a ls ih =>
    rw [List.flatMap_cons, occ_append, occ_map_createIndex, ih, occ_cons]
    by_cases ha : a = l
    · simp [ha, Nat.add_mul]
    · simp [ha]

/-- C8: one row of the index descriptor file produces no index operation when
its labels or properties are empty, its kind is LOOKUP, or its uniqueness is
UNIQUE; otherwise it produces exactly one index-creation operation per pair
of the cross-product of its ;-split label list and property list. -/
theorem C8_index_cross_product (st : LoaderState) (row : Row) :
    (pyStrip (rowGet row "labels") = "" ∨ pyStrip (rowGet row "properties") = "" ∨
      pyUpper (rowGet row "type") = "LOOKUP" ∨
      rowGetD row "uniqueness" "NON_UNIQUE" = "UNIQUE" →
      indexRowOps st row = []) ∧
    (¬(pyStrip (rowGet row "labels") = "" ∨ pyStrip (rowGet row "properties") = "" ∨
      pyUpper (rowGet row "type") = "LOOKUP" ∨
      rowGetD row "uniqueness" "NON_UNIQUE" = "UNIQUE") →
      (∀ l p, occ (Op.createIndex st.currentGraph l p) (indexRowOps st row) =
        occ l (semiSplit (pyStrip (rowGet row "labels"))) *
          occ p (semiSplit (pyStrip (rowGet row "properties")))) ∧
      (∀ op ∈ indexRowOps st row, ∃ l ∈ semiSplit (pyStrip (rowGet row "labels")),
        ∃ p ∈ semiSplit (pyStrip (rowGet row "properties")),
          op = Op.createIndex st.currentGraph l p)) := by
  constructor
  · intro h
    simp only [indexRowOps]
    rw [if_pos h]
  · intro h
    simp only [indexRowOps]
    rw [if_neg h]
    constructor
    · intro l p
      exact occ_cross st.currentGraph _ _ l p
    · intro op hop
      rw [List.mem_flatMap] at hop
      obtain ⟨l, hl, hop⟩ := hop
      rw [List.mem_map] at hop
      obtain ⟨p, hp, rfl⟩ := hop
      exact ⟨l, hl, p, hp, rfl⟩

/-- C8 witness: the theorem applied at a concrete descriptor row with two
labels and two properties (four cross-product operations, one each). -/
theorem C8_index_cross_product_witness :
    occ (Op.createIndex "g" "A" "x")
      (indexRowOps stEx [("labels", "A;B"), ("properties", "x;y"),
        ("type", "RANGE"), ("uniqueness", "NON_UNIQUE")]) =
      occ "A" (semiSplit (pyStrip (rowGet [("labels", "A;B"), ("properties", "x;y"),
        ("type", "RANGE"), ("uniqueness", "NON_UNIQUE")] "labels"))) *
        occ "x" (semiSplit (pyStrip (rowGet [("labels", "A;B"), ("properties", "x;y"),
          ("type", "RANGE"), ("uniqueness", "NON_UNIQUE")] "properties"))) :=
  ((C8_index_cross_product stEx [("labels", "A;B"), ("properties", "x;y"),
    ("type", "RANGE"), ("uniqueness", "NON_UNIQUE")]).2 (by decide)).1 "A" "x"

/-- C7: the bulk edge query takes one endpoint-label decision from the first
record of the batch payload — by (label, id) with that record's stored
labels when both are nonempty, by id alone otherwise — independently of every
other record's label fields, and the issued bulk operation applies that one
decision to the whole batch. -/
theorem C7_first_record_labels (st : LoaderState) (rel : String) (r : EdgeRec)
    (rest rest2 : List EdgeRec) :
    edgeBulkMatcher (r :: rest) = edgeBulkMatcher (r :: rest2) ∧
    (r.sourceLabel ≠ "" → r.targetLabel ≠ "" →
      edgeBulkMatcher (r :: rest) = .byLabel r.sourceLabel r.targetLabel) ∧
    (r.sourceLabel = "" ∨ r.targetLabel = "" → edgeBulkMatcher (r :: rest) = .byId) ∧
    (∀ (store : Store) (batch : List Row) (recs : List EdgeRec) (qp : List Op),
      edgeQueryPartsE st rel batch = .ok qp → edgeBatchData batch = .ok recs →
      recs ≠ [] →
      (runEdgeBatch store st rel batch).1.head? =
        some (Op.edgeBulk st.currentGraph rel st.mergeMode (edgeBulkMatcher recs) recs)) := by
  refine ⟨rfl, ?_, ?_, ?_⟩
  · intro h1 h2
    simp only [edgeBulkMatcher]
    rw [if_neg (by push_neg; exact ⟨h1, h2⟩)]
  · intro h
    simp only [edgeBulkMatcher]
    rw [if_pos h]
  · intro store batch recs qp hq hb hne
    unfold runEdgeBatch
    rw [hq, hb]
    have hlen : ¬recs.length = 0 := by
      intro h0
      exact hne (List.length_eq_zero.mp h0)
    simp only [if_neg hlen]
    by_cases hs : store (edgeBulkOp st rel recs)
    · rw [if_pos hs]
      rfl
    · rw [if_neg hs]
      rfl

/-- C7 witness: the theorem applied at a concrete one-record batch carrying
endpoint labels `A` and `B`. -/
theorem C7_first_record_labels_witness :
    edgeBulkMatcher [⟨.vint 1, .vint 2, "A", "B", []⟩] = .byLabel "A" "B" ∧
    (runEdgeBatch storeTrue stEx "REL"
      [[("source", "1"), ("target", "2"), ("source_label", "A"), ("target_label", "B")]]).1.head? =
      some (Op.edgeBulk "g" "REL" false
        (edgeBulkMatcher [⟨.vint 1, .vint 2, "A", "B", []⟩])
        [⟨.vint 1, .vint 2, "A", "B", []⟩]) :=
  ⟨(C7_first_record_labels stEx "REL" ⟨.vint 1, .vint 2, "A", "B", []⟩ [] []).2.1
      (by decide) (by decide),
   (C7_first_record_labels stEx "REL" ⟨.vint 1, .vint 2, "A", "B", []⟩ [] []).2.2.2
      storeTrue
      [[("source", "1"), ("target", "2"), ("source_label", "A"), ("target_label", "B")]]
      [⟨.vint 1, .vint 2, "A", "B", []⟩]
      [Op.edgeRow "g" "REL" false (.byLabel "A" "B") (.vint 1) (.vint 2) []]
      (by decide) (by decide) (by decide)⟩

theorem nodeBatchData_length (b : List Row) (recs : List NodeRec)
    (h : nodeBatchData b = .ok recs) : recs.length = b.length := by
  induction b generalizing recs with
  | nil =>
    simp only [nodeBatchData, Except.ok.injEq] at h
    subst h; rfl
  | cons row rest ih =>
    rw [nodeBatchData] at h
    cases h1 : nodeTranslateRow row with
    | error e => rw [h1] at h; simp at h
    | ok r =>
      cases h2 : nodeBatchData rest with
      | error e => rw [h1, h2] at h; simp at h
      | ok rs =>
        rw [h1, h2] at h
        simp only [Except.ok.injEq] at h
        subst h
        simp [ih rs h2]

theorem runNodeBatch_of_ok (store : Store) (st : LoaderState) (label : String)
    (b : List Row) (recs : List NodeRec) (h : nodeBatchData b = .ok recs) :
    (runNodeBatch store st label b).2.2 = true ∧
    nodeBulkOp st label recs ∈ (runNodeBatch store st label b).1 ∧
    (store (nodeBulkOp st label recs) = false →
      (runNodeBatch store st label b).1 =
        nodeBulkOp st label recs :: recs.map (nodeRowOp st label) ∧
      (runNodeBatch store st label b).2.1 =
        ((recs.map (nodeRowOp st label)).filter store).length) := by
  have hred : runNodeBatch store st label b =
      (if store (nodeBulkOp st label recs) then
        ([nodeBulkOp st label recs], b.length, true)
      else (nodeBulkOp st label recs :: recs.map (nodeRowOp st label),
        ((recs.map (nodeRowOp st label)).filter store).length, true)) := by
    unfold runNodeBatch
    rw [h]
  rw [hred]
  by_cases hs : store (nodeBulkOp st label recs)
  · rw [if_pos hs]
    exact ⟨rfl, by simp, fun hc => absurd hs (by rw [hc]; decide)⟩
  · rw [if_neg hs]
    exact ⟨rfl, by simp, fun _ => ⟨rfl, rfl⟩⟩

theorem runNodeChunks_of_ok (store : Store) (st : LoaderState) (label : String) :
    ∀ (bs : List (List Row)), (∀ b ∈ bs, exceptIsOk (nodeBatchData b) = true) →
      (runNodeChunks store st label bs).2.2 = true ∧
      (runNodeChunks store st label bs).1 =
        bs.flatMap (fun b => (runNodeBatch store st label b).1) := by
  intro bs
  induction bs with
  | nil => intro _; exact ⟨rfl, rfl⟩
  | cons b rest ih =>
    intro hall
    have hb : exceptIsOk (nodeBatchData b) = true := hall b (by simp)
    obtain ⟨recs, hrecs⟩ : ∃ recs, nodeBatchData b = .ok recs := by
      cases hcase : nodeBatchData b with
      | error e => rw [hcase] at hb; simp [exceptIsOk] at hb
      | ok recs => exact ⟨recs, rfl⟩
    have hflag := (runNodeBatch_of_ok store st label b recs hrecs).1
    rcases hrb : runNodeBatch store st label b with ⟨tr, n, flag⟩
    rw [hrb] at hflag
    cases flag with
    | false => simp at hflag
    | true =>
      have hrest := ih (fun b2 hb2 => hall b2 (List.mem_cons_of_mem _ hb2))
      simp only [runNodeChunks, hrb, List.flatMap_cons]
      exact ⟨hrest.1, by rw [hrest.2]⟩

theorem edge_qp_recs_length (st : LoaderState) (rel : String) :
    ∀ (batch : List Row) (qp : List Op) (recs : List EdgeRec),
      edgeQueryPartsE st rel batch = .ok qp → edgeBatchData batch = .ok recs →
      qp.length = recs.length := by
  intro batch
  induction batch with
  | nil =>
    intro qp recs h1 h2
    simp only [edgeQueryPartsE, Except.ok.injEq] at h1
    simp only [edgeBatchData, Except.ok.injEq] at h2
    subst h1; subst h2; rfl
  | cons row rest ih =>
    intro qp recs h1 h2
    rw [edgeQueryPartsE] at h1
    rw [edgeBatchData] at h2
    by_cases hcond : rowGet row "source" = "" ∨ rowGet row "target" = ""
    · have hq : edgeRowQueryE st rel row = .ok none := by
        simp only [edgeRowQueryE]
        rw [if_pos hcond]
      have ht : edgeTranslateRow row = .ok none := by
        simp only [edgeTranslateRow]
        rw [if_pos hcond]
      rw [hq] at h1
      rw [ht] at h2
      cases hrq : edgeQueryPartsE st rel rest with
      | error e => rw [hrq] at h1; simp at h1
      | ok qs =>
        cases hrd : edgeBatchData rest with
        | error e => rw [hrd] at h2; simp at h2
        | ok rs =>
          rw [hrq] at h1
          rw [hrd] at h2
          simp only [Except.ok.injEq] at h1 h2
          subst h1; subst h2
          exact ih qs rs hrq hrd
    · cases hp : edgePropsE row with
      | error e =>
        have hq : edgeRowQueryE st rel row = .error e := by
          simp only [edgeRowQueryE]
          rw [if_neg hcond, hp]
        rw [hq] at h1
        simp at h1
      | ok ps =>
        obtain ⟨q, hq⟩ : ∃ q, edgeRowQueryE st rel row = .ok (some q) := by
          simp only [edgeRowQueryE]
          rw [if_neg hcond, hp]
          exact ⟨_, rfl⟩
        obtain ⟨r, ht⟩ : ∃ r, edgeTranslateRow row = .ok (some r) := by
          simp only [edgeTranslateRow]
          rw [if_neg hcond, hp]
          exact ⟨_, rfl⟩
        rw [hq] at h1
        rw [ht] at h2
        cases hrq : edgeQueryPartsE st rel rest with
        | error e => rw [hrq] at h1; simp at h1
        | ok qs =>
          cases hrd : edgeBatchData rest with
          | error e => rw [hrd] at h2; simp at h2
          | ok rs =>
            rw [hrq] at h1
            rw [hrd] at h2
            simp only [Except.ok.injEq] at h1 h2
            subst h1; subst h2
            simp [ih qs rs hrq hrd]

theorem runEdgeBatch_of_ok (store : Store) (st : LoaderState) (rel : String)
    (batch : List Row) (qp : List Op) (recs : List EdgeRec)
    (hq : edgeQueryPartsE st rel batch = .ok qp) (hb : edgeBatchData batch = .ok recs) :
    (runEdgeBatch store st rel batch).2.2 = true ∧
    (recs ≠ [] → edgeBulkOp st rel recs ∈ (runEdgeBatch store st rel batch).1) ∧
    (recs ≠ [] → store (edgeBulkOp st rel recs) = false →
      (runEdgeBatch store st rel batch).1 = edgeBulkOp st rel recs :: qp ∧
      (runEdgeBatch store st rel batch).2.1 = (qp.filter store).length) := by
  have hred : runEdgeBatch store st rel batch =
      (if recs.length = 0 then ([], 0, true)
      else if store (edgeBulkOp st rel recs) then ([edgeBulkOp st rel recs], recs.length, true)
      else (edgeBulkOp st rel recs :: qp, (qp.filter store).length, true)) := by
    unfold runEdgeBatch
    rw [hq, hb]
  rw [hred]
  by_cases hlen : recs.length = 0
  · rw [if_pos hlen]
    have hnil : recs = [] := List.length_eq_zero.mp hlen
    exact ⟨rfl, fun hne => absurd hnil hne, fun hne => absurd hnil hne⟩
  · rw [if_neg hlen]
    by_cases hs : store (edgeBulkOp st rel recs)
    · rw [if_pos hs]
      exact ⟨rfl, fun _ => by simp, fun _ hc => absurd hs (by rw [hc]; decide)⟩
    · rw [if_neg hs]
      exact ⟨rfl, fun _ => by simp, fun _ _ => ⟨rfl, rfl⟩⟩

theorem runEdgeChunks_of_ok (store : Store) (st : LoaderState) (rel : String) :
    ∀ (bs : List (List Row)),
      (∀ b ∈ bs, exceptIsOk (edgeBatchData b) = true ∧
        exceptIsOk (edgeQueryPartsE st rel b) = true) →
      (runEdgeChunks store st rel bs).2.2 = true ∧
      (runEdgeChunks store st rel bs).1 =
        bs.flatMap (fun b => (runEdgeBatch store st rel b).1) := by
  intro bs
  induction bs with
  | nil => intro _; exact ⟨rfl, rfl⟩
  | cons b rest ih =>
    intro hall
    obtain ⟨hb, hq⟩ := hall b (by simp)
    obtain ⟨recs, hrecs⟩ : ∃ recs, edgeBatchData b = .ok recs := by
      cases hcase : edgeBatchData b with
      | error e => rw [hcase] at hb; simp [exceptIsOk] at hb
      | ok recs => exact ⟨recs, rfl⟩
    obtain ⟨qp, hqp⟩ : ∃ qp, edgeQueryPartsE st rel b = .ok qp := by
      cases hcase : edgeQueryPartsE st rel b with
      | error e => rw [hcase] at hq; simp [exceptIsOk] at hq
      | ok qp => exact ⟨qp, rfl⟩
    have hflag := (runEdgeBatch_of_ok store st rel b qp recs hqp hrecs).1
    rcases hrb : runEdgeBatch store st rel b with ⟨tr, n, flag⟩
    rw [hrb] at hflag
    cases flag with
    | false => simp at hflag
    | true =>
      have hrest := ih (fun b2 hb2 => hall b2 (List.mem_cons_of_mem _ hb2))
      simp only [runEdgeChunks, hrb, List.flatMap_cons]
      exact ⟨hrest.1, by rw [hrest.2]⟩

/-- C5: for every batch list of a file whose rows translate without error,
execution never raises on store failures; each batch's bulk write is issued
regardless of other batches' outcomes (subsequent batches are not aborted);
and when a batch's bulk write fails the batch is replayed as exactly the
per-row queries of its surviving rows (for nodes, one per row of the batch),
with the loaded count equal to the number of individually successful per-row
queries — one row's failure never blocks the remaining rows. -/
theorem C5_batch_fallback (store : Store) (st : LoaderState) (label rel : String)
    (bs : List (List Row)) :
    ((∀ b ∈ bs, exceptIsOk (nodeBatchData b) = true) →
      (runNodeChunks store st label bs).2.2 = true ∧
      ∀ b ∈ bs, ∀ recs, nodeBatchData b = .ok recs →
        recs.length = b.length ∧
        nodeBulkOp st label recs ∈ (runNodeChunks store st label bs).1 ∧
        (store (nodeBulkOp st label recs) = false →
          (∀ r ∈ recs, nodeRowOp st label r ∈ (runNodeChunks store st label bs).1) ∧
          (runNodeBatch store st label b).2.1 =
            ((recs.map (nodeRowOp st label)).filter store).length)) ∧
    ((∀ b ∈ bs, exceptIsOk (edgeBatchData b) = true ∧
        exceptIsOk (edgeQueryPartsE st rel b) = true) →
      (runEdgeChunks store st rel bs).2.2 = true ∧
      ∀ b ∈ bs, ∀ recs qp, edgeBatchData b = .ok recs → edgeQueryPartsE st rel b = .ok qp →
        qp.length = recs.length ∧
        (recs ≠ [] →
          edgeBulkOp st rel recs ∈ (runEdgeChunks store st rel bs).1 ∧
          (store (edgeBulkOp st rel recs) = false →
            (∀ q ∈ qp, q ∈ (runEdgeChunks store st rel bs).1) ∧
            (runEdgeBatch store st rel b).2.1 = (qp.filter store).length))) := by
  constructor
  · intro hn
    obtain ⟨hflag, htr⟩ := runNodeChunks_of_ok store st label bs hn
    refine ⟨hflag, ?_⟩
    intro b hb recs hrecs
    have hbatch := runNodeBatch_of_ok store st label b recs hrecs
    refine ⟨nodeBatchData_length b recs hrecs, ?_, ?_⟩
    · rw [htr]
      exact List.mem_flatMap.mpr ⟨b, hb, hbatch.2.1⟩
    · intro hsf
      obtain ⟨htrb, hcount⟩ := hbatch.2.2 hsf
      refine ⟨?_, hcount⟩
      intro r hr
      rw [htr]
      refine List.mem_flatMap.mpr ⟨b, hb, ?_⟩
      rw [htrb]
      exact List.mem_cons_of_mem _ (List.mem_map_of_mem _ hr)
  · intro he
    obtain ⟨hflag, htr⟩ := runEdgeChunks_of_ok store st rel bs he
    refine ⟨hflag, ?_⟩
    intro b hb recs qp hrecs hqp
    have hbatch := runEdgeBatch_of_ok store st rel b qp recs hqp hrecs
    refine ⟨edge_qp_recs_length st rel b qp recs hqp hrecs, ?_⟩
    intro hne
    refine ⟨?_, ?_⟩
    · rw [htr]
      exact List.mem_flatMap.mpr ⟨b, hb, hbatch.2.1 hne⟩
    · intro hsf
      obtain ⟨htrb, hcount⟩ := hbatch.2.2 hne hsf
      refine ⟨?_, hcount⟩
      intro q hq
      rw [htr]
      refine List.mem_flatMap.mpr ⟨b, hb, ?_⟩
      rw [htrb]
      exact List.mem_cons_of_mem _ hq

/-- C5 witness: the theorem applied with a store failing every node bulk
write, on a two-batch node file; the second row's individual query appears in
the trace and execution completes. -/
theorem C5_batch_fallback_witness :
    (runNodeChunks (fun op => match op with | Op.nodeBulk _ _ _ _ => false | _ => true)
      stEx "Person" [[[("id", "1")]], [[("id", "2")]]]).2.2 = true ∧
    nodeRowOp stEx "Person" ⟨.vint 2, []⟩ ∈
      (runNodeChunks (fun op => match op with | Op.nodeBulk _ _ _ _ => false | _ => true)
        stEx "Person" [[[("id", "1")]], [[("id", "2")]]]).1 := by
  have h := (C5_batch_fallback
    (fun op => match op with | Op.nodeBulk _ _ _ _ => false | _ => true)
    stEx "Person" "REL" [[[("id", "1")]], [[("id", "2")]]]).1 (by decide)
  exact ⟨h.1, ((h.2 [[("id", "2")]] (by decide) [⟨.vint 2, []⟩] (by decide)).2.2
    (by decide)).1 ⟨.vint 2, []⟩ (by decide)⟩

theorem runNodeBatch_err (store : Store) (st : LoaderState) (label : String)
    (b : List Row) (e : Unit) (h : nodeBatchData b = .error e) :
    runNodeBatch store st label b = ([], 0, false) := by
  unfold runNodeBatch
  rw [h]

theorem runNodeBatch_red (store : Store) (st : LoaderState) (label : String)
    (b : List Row) (recs : List NodeRec) (h : nodeBatchData b = .ok recs) :
    runNodeBatch store st label b =
      (if store (nodeBulkOp st label recs) then
        ([nodeBulkOp st label recs], b.length, true)
      else (nodeBulkOp st label recs :: recs.map (nodeRowOp st label),
        ((recs.map (nodeRowOp st label)).filter store).length, true)) := by
  unfold runNodeBatch
  rw [h]

theorem phase_runNodeBatch (store : Store) (st : LoaderState) (label : String)
    (b : List Row) : ∀ op ∈ (runNodeBatch store st label b).1, phase op = 4 := by
  intro op hop
  cases h : nodeBatchData b with
  | error e =>
    rw [runNodeBatch_err store st label b e h] at hop
    simp at hop
  | ok recs =>
    rw [runNodeBatch_red store st label b recs h] at hop
    by_cases hs : store (nodeBulkOp st label recs)
    · rw [if_pos hs] at hop
      simp only [List.mem_singleton] at hop
      rw [hop]
      rfl
    · rw [if_neg hs] at hop
      rcases List.mem_cons.mp hop with hop1 | hop2
      · rw [hop1]; rfl
      · obtain ⟨r, _, hr⟩ := List.mem_map.mp hop2
        rw [← hr]
        rfl

theorem phase_runNodeChunks (store : Store) (st : LoaderState) (label : String) :
    ∀ (bs : List (List Row)), ∀ op ∈ (runNodeChunks store st label bs).1, phase op = 4 := by
  intro bs
  induction bs with
  | nil => intro op hop; simp [runNodeChunks] at hop
  | cons b rest ih =>
    intro op hop
    rcases hrb : runNodeBatch store st label b with ⟨tr, n, flag⟩
    have htr : ∀ op2 ∈ tr, phase op2 = 4 := by
      intro op2 hop2
      have := phase_runNodeBatch store st label b op2
      rw [hrb] at this
      exact this hop2
    cases flag with
    | false =>
      simp only [runNodeChunks, hrb] at hop
      exact htr op hop
    | true =>
      simp only [runNodeChunks, hrb] at hop
      rcases List.mem_append.mp hop with h1 | h2
      · exact htr op h1
      · exact ih op h2

theorem phase_runNodeFiles (store : Store) (st : LoaderState) (bsize : Nat)
    (d : SourceDir) : ∀ (fls : List String),
    ∀ op ∈ (runNodeFiles store st bsize d fls).1, phase op = 4 := by
  intro fls
  induction fls with
  | nil => intro op hop; simp [runNodeFiles] at hop
  | cons f rest ih =>
    intro op hop
    rcases hrf : runNodeFile store st bsize d f with ⟨tr, n, flag⟩
    have htr : ∀ op2 ∈ tr, phase op2 = 4 := by
      intro op2 hop2
      have := phase_runNodeChunks store st (nodeFileLabel f) (chunks bsize (d.rowsOf f)) op2
      have hrw : runNodeFile store st bsize d f =
          runNodeChunks store st (nodeFileLabel f) (chunks bsize (d.rowsOf f)) := rfl
      rw [hrw] at hrf
      rw [hrf] at this
      exact this hop2
    cases flag with
    | false =>
      simp only [runNodeFiles, hrf] at hop
      exact htr op hop
    | true =>
      simp only [runNodeFiles, hrf] at hop
      rcases List.mem_append.mp hop with h1 | h2
      · exact htr op h1
      · exact ih op h2

theorem runEdgeBatch_err_q (store : Store) (st : LoaderState) (rel : String)
    (b : List Row) (e : Unit) (h : edgeQueryPartsE st rel b = .error e) :
    runEdgeBatch store st rel b = ([], 0, false) := by
  unfold runEdgeBatch
  rw [h]

theorem runEdgeBatch_red (store : Store) (st : LoaderState) (rel : String)
    (b : List Row) (qp : List Op) (recs : List EdgeRec)
    (hq : edgeQueryPartsE st rel b = .ok qp) (hb : edgeBatchData b = .ok recs) :
    runEdgeBatch store st rel b =
      (if recs.length = 0 then ([], 0, true)
      else if store (edgeBulkOp st rel recs) then ([edgeBulkOp st rel recs], recs.length, true)
      else (edgeBulkOp st rel recs :: qp, (qp.filter store).length, true)) := by
  unfold runEdgeBatch
  rw [hq, hb]

theorem phase_edgeQueryParts (st : LoaderState) (rel : String) :
    ∀ (b : List Row) (qp : List Op), edgeQueryPartsE st rel b = .ok qp →
      ∀ op ∈ qp, phase op = 5 := by
  intro b
  induction b with
  | nil =>
    intro qp h op hop
    simp only [edgeQueryPartsE, Except.ok.injEq] at h
    rw [← h] at hop
    simp at hop
  | cons row rest ih =>
    intro qp h op hop
    rw [edgeQueryPartsE] at h
    by_cases hcond : rowGet row "source" = "" ∨ rowGet row "target" = ""
    · have hq : edgeRowQueryE st rel row = .ok none := by
        simp only [edgeRowQueryE]
        rw [if_pos hcond]
      rw [hq] at h
      cases hrq : edgeQueryPartsE st rel rest with
      | error e => rw [hrq] at h; simp at h
      | ok qs =>
        rw [hrq] at h
        simp only [Except.ok.injEq] at h
        rw [← h] at hop
        exact ih qs hrq op hop
    · cases hp : edgePropsE row with
      | error e =>
        have hq : edgeRowQueryE st rel row = .error e := by
          simp only [edgeRowQueryE]
          rw [if_neg hcond, hp]
        rw [hq] at h
        simp at h
      | ok ps =>
        have hq : edgeRowQueryE st rel row = .ok (some (Op.edgeRow st.currentGraph rel
            st.mergeMode (perRowMatcher (pyStrip (rowGet row "source_label"))
              (pyStrip (rowGet row "target_label")))
            (idValue (rowGet row "source")) (idValue (rowGet row "target")) ps)) := by
          simp only [edgeRowQueryE]
          rw [if_neg hcond, hp]
        rw [hq] at h
        cases hrq : edgeQueryPartsE st rel rest with
        | error e => rw [hrq] at h; simp at h
        | ok qs =>
          rw [hrq] at h
          simp only [Except.ok.injEq] at h
          rw [← h] at hop
          rcases List.mem_cons.mp hop with hop1 | hop2
          · rw [hop1]; rfl
          · exact ih qs hrq op hop2

theorem phase_runEdgeBatch (store : Store) (st : LoaderState) (rel : String)
    (b : List Row) : ∀ op ∈ (runEdgeBatch store st rel b).1, phase op = 5 := by
  intro op hop
  cases hq : edgeQueryPartsE st rel b with
  | error e =>
    rw [runEdgeBatch_err_q store st rel b e hq] at hop
    simp at hop
  | ok qp =>
    cases hb : edgeBatchData b with
    | error e =>
      unfold runEdgeBatch at hop
      rw [hq, hb] at hop
      simp at hop
    | ok recs =>
      rw [runEdgeBatch_red store st rel b qp recs hq hb] at hop
      by_cases hlen : recs.length = 0
      · rw [if_pos hlen] at hop
        simp at hop
      · rw [if_neg hlen] at hop
        by_cases hs : store (edgeBulkOp st rel recs)
        · rw [if_pos hs] at hop
          simp only [List.mem_singleton] at hop
          rw [hop]
          rfl
        · rw [if_neg hs] at hop
          rcases List.mem_cons.mp hop with hop1 | hop2
          · rw [hop1]; rfl
          · exact phase_edgeQueryParts st rel b qp hq op hop2

theorem phase_runEdgeChunks (store : Store) (st : LoaderState) (rel : String) :
    ∀ (bs : List (List Row)), ∀ op ∈ (runEdgeChunks store st rel bs).1, phase op = 5 := by
  intro bs
  induction bs with
  | nil => intro op hop; simp [runEdgeChunks] at hop
  | cons b rest ih =>
    intro op hop
    rcases hrb : runEdgeBatch store st rel b with ⟨tr, n, flag⟩
    have htr : ∀ op2 ∈ tr, phase op2 = 5 := by
      intro op2 hop2
      have := phase_runEdgeBatch store st rel b op2
      rw [hrb] at this
      exact this hop2
    cases flag with
    | false =>
      simp only [runEdgeChunks, hrb] at hop
      exact htr op hop
    | true =>
      simp only [runEdgeChunks, hrb] at hop
      rcases List.mem_append.mp hop with h1 | h2
      · exact htr op h1
      · exact ih op h2

theorem phase_runEdgeFiles (store : Store) (st : LoaderState) (bsize : Nat)
    (d : SourceDir) : ∀ (fls : List String),
    ∀ op ∈ (runEdgeFiles store st bsize d fls).1, phase op = 5 := by
  intro fls
  induction fls with
  | nil => intro op hop; simp [runEdgeFiles] at hop
  | cons f rest ih =>
    intro op hop
    rcases hrf : runEdgeFile store st bsize d f with ⟨tr, n, flag⟩
    have htr : ∀ op2 ∈ tr, phase op2 = 5 := by
      intro op2 hop2
      have := phase_runEdgeChunks store st (relTypeOf f) (chunks bsize (d.rowsOf f)) op2
      have hrw : runEdgeFile store st bsize d f =
          runEdgeChunks store st (relTypeOf f) (chunks bsize (d.rowsOf f)) := rfl
      rw [hrw] at hrf
      rw [hrf] at this
      exact this hop2
    cases flag with
    | false =>
      simp only [runEdgeFiles, hrf] at hop
      exact htr op hop
    | true =>
      simp only [runEdgeFiles, hrf] at hop
      rcases List.mem_append.mp hop with h1 | h2
      · exact htr op h1
      · exact ih op h2

theorem phase_idIndexOps (st : LoaderState) (d : SourceDir) :
    ∀ op ∈ idIndexOps st d, phase op = 0 := by
  intro op hop
  obtain ⟨f, _, hf⟩ := List.mem_map.mp hop
  rw [← hf]
  rfl

theorem phase_indexRowOps (st : LoaderState) (row : Row) :
    ∀ op ∈ indexRowOps st row, phase op = 1 := by
  intro op hop
  simp only [indexRowOps] at hop
  split at hop
  · simp at hop
  · obtain ⟨l, _, hop⟩ := List.mem_flatMap.mp hop
    obtain ⟨p, _, hf⟩ := List.mem_map.mp hop
    rw [← hf]
    rfl

theorem phase_indexCsvOps (st : LoaderState) (d : SourceDir) :
    ∀ op ∈ indexCsvOps st d, phase op = 1 := by
  intro op hop
  simp only [indexCsvOps] at hop
  split at hop
  · obtain ⟨row, _, hop⟩ := List.mem_flatMap.mp hop
    exact phase_indexRowOps st row op hop
  · simp at hop

theorem phase_supportRowOps (st : LoaderState) (row : Row) :
    ∀ op ∈ supportRowOps st row, phase op = 2 := by
  intro op hop
  simp only [supportRowOps] at hop
  split at hop
  · simp at hop
  · obtain ⟨l, _, hf⟩ := List.mem_map.mp hop
    rw [← hf]
    rfl

theorem phase_supportOps (st : LoaderState) (d : SourceDir) :
    ∀ op ∈ supportOps st d, phase op = 2 := by
  intro op hop
  simp only [supportOps] at hop
  split at hop
  · obtain ⟨row, _, hop⟩ := List.mem_flatMap.mp hop
    exact phase_supportRowOps st row op hop
  · simp at hop

theorem phase_constraintRowOps (st : LoaderState) (row : Row) :
    ∀ op ∈ constraintRowOps st row, phase op = 3 := by
  intro op hop
  simp only [constraintRowOps] at hop
  split at hop
  · simp at hop
  · split at hop
    · obtain ⟨l, _, hf⟩ := List.mem_map.mp hop
      rw [← hf]
      rfl
    · simp at hop

theorem phase_constraintOps (st : LoaderState) (d : SourceDir) :
    ∀ op ∈ constraintOps st d, phase op = 3 := by
  intro op hop
  simp only [constraintOps] at hop
  split at hop
  · obtain ⟨row, _, hop⟩ := List.mem_flatMap.mp hop
    exact phase_constraintRowOps st row op hop
  · simp at hop

theorem pairwise_of_const (l : List Op) (c : Nat) (h : ∀ a ∈ l, phase a = c) :
    l.Pairwise (fun a b => phase a ≤ phase b) := by
  induction l with
  | nil => exact List.Pairwise.nil
  | cons x xs ih =>
    refine List.Pairwise.cons ?_ (ih (fun a ha => h a (List.mem_cons_of_mem _ ha)))
    intro b hb
    rw [h x (List.mem_cons_self _ _), h b (List.mem_cons_of_mem _ hb)]

theorem pairwise_append_phase (l1 l2 : List Op)
    (h1 : l1.Pairwise (fun a b => phase a ≤ phase b))
    (h2 : l2.Pairwise (fun a b => phase a ≤ phase b))
    (hc : ∀ a ∈ l1, ∀ b ∈ l2, phase a ≤ phase b) :
    (l1 ++ l2).Pairwise (fun a b => phase a ≤ phase b) :=
  List.pairwise_append.mpr ⟨h1, h2, hc⟩

theorem schema_phase_le (st : LoaderState) (d : SourceDir) :
    ∀ op ∈ idIndexOps st d ++ indexCsvOps st d ++ supportOps st d ++ constraintOps st d,
      phase op ≤ 3 := by
  intro op hop
  rcases List.mem_append.mp hop with h1 | h1
  · rcases List.mem_append.mp h1 with h2 | h2
    · rcases List.mem_append.mp h2 with h3 | h3
      · rw [phase_idIndexOps st d op h3]; omega
      · rw [phase_indexCsvOps st d op h3]; omega
    · rw [phase_supportOps st d op h2]; omega
  · rw [phase_constraintOps st d op h1]

theorem schema_pairwise (st : LoaderState) (d : SourceDir) :
    (idIndexOps st d ++ indexCsvOps st d ++ supportOps st d ++
      constraintOps st d).Pairwise (fun a b => phase a ≤ phase b) := by
  refine pairwise_append_phase _ _ (pairwise_append_phase _ _
    (pairwise_append_phase _ _ (pairwise_of_const _ 0 (phase_idIndexOps st d))
      (pairwise_of_const _ 1 (phase_indexCsvOps st d)) ?_)
    (pairwise_of_const _ 2 (phase_supportOps st d)) ?_)
    (pairwise_of_const _ 3 (phase_constraintOps st d)) ?_
  · intro a ha b hb
    rw [phase_idIndexOps st d a ha, phase_indexCsvOps st d b hb]
    omega
  · intro a ha b hb
    rw [phase_supportOps st d b hb]
    rcases List.mem_append.mp ha with h1 | h1
    · rw [phase_idIndexOps st d a h1]; omega
    · rw [phase_indexCsvOps st d a h1]; omega
  · intro a ha b hb
    rw [phase_constraintOps st d b hb]
    rcases List.mem_append.mp ha with h1 | h1
    · rcases List.mem_append.mp h1 with h2 | h2
      · rw [phase_idIndexOps st d a h2]; omega
      · rw [phase_indexCsvOps st d a h2]; omega
    · rw [phase_supportOps st d a h1]; omega

/-- C6: in the trace of one target graph's pipeline run, operations appear in
nondecreasing phase order — id-index creation, descriptor-index creation,
constraint-supporting-index creation, constraint creation, node writes, edge
writes; hence all four schema steps precede every node data write, and every
node write precedes every edge write (so all node files finish before any
edge file starts), for every store and filesystem behavior. -/
theorem C6_pipeline_ordering (store : Store) (fsys : FileSys) (st : LoaderState)
    (bsize : Nat) :
    ((loadSingleGraph store fsys st bsize).1).Pairwise
      (fun a b => phase a ≤ phase b) := by
  simp only [loadSingleGraph]
  rcases hnf : runNodeFiles store st bsize (fsys st.csvDir)
    (nodeFilesOf (fsys st.csvDir)) with ⟨ntr, nflag⟩
  have hntr : ∀ op ∈ ntr, phase op = 4 := by
    intro op hop
    have := phase_runNodeFiles store st bsize (fsys st.csvDir)
      (nodeFilesOf (fsys st.csvDir)) op
    rw [hnf] at this
    exact this hop
  cases nflag with
  | false =>
    apply pairwise_append_phase
    · exact schema_pairwise st (fsys st.csvDir)
    · exact pairwise_of_const _ 4 hntr
    · intro a ha b hb
      have := schema_phase_le st (fsys st.csvDir) a ha
      rw [hntr b hb]
      omega
  | true =>
    have hetr : ∀ op ∈ (runEdgeFiles store st bsize (fsys st.csvDir)
        (edgeFilesOf (fsys st.csvDir))).1, phase op = 5 :=
      phase_runEdgeFiles store st bsize (fsys st.csvDir) (edgeFilesOf (fsys st.csvDir))
    apply pairwise_append_phase
    · apply pairwise_append_phase
      · exact schema_pairwise st (fsys st.csvDir)
      · exact pairwise_of_const _ 4 hntr
      · intro a ha b hb
        have := schema_phase_le st (fsys st.csvDir) a ha
        rw [hntr b hb]
        omega
    · exact pairwise_of_const _ 5 hetr
    · intro a ha b hb
      rw [hetr b hb]
      rcases List.mem_append.mp ha with h1 | h1
      · have := schema_phase_le st (fsys st.csvDir) a h1
        omega
      · rw [hntr a h1]
        omega

end FalkorLoader
